import Mathlib

/-!
Verification development for the light-propagation engine of
`full_spectrum.py`: a grid-based puzzle in which light emitted by active
sources propagates orthogonally, degrades to scattered light at beam
intersections, refracts through crystals (iterated to a bounded fixed
point), and permanently locks movable blocks that are hit by direct light.

The Python code is embedded shallowly: the board is a total tile function
over integer coordinates together with its configured dimensions (all
engine reads are bounds-guarded, exactly as in the source, where every
walk is produced by `neighbors_line` / `range` loops); the mutable
`light_direct` / `light_scatter` sets are threaded explicitly as finite
sets of coordinates; Python `while` loops are fuel-indexed recursions
whose fuel provably dominates the number of iterations the source can
perform.
-/

/-- Cell kinds, the twelve voxel tags `V` of the source (0..11).  The
cosmetic and overlay tags are carried along so that the tile type is the
source's, but the engine logic only ever tests the six logic kinds. -/
inductive V where
  | BG
  | BLOCK_MOV
  | BLOCK_IMMOV
  | ENERGY_USED
  | ENERGY_UNUSED
  | SOURCE_ON
  | SOURCE_OFF
  | LIGHT_DIRECT
  | LIGHT_SCATTER
  | CRYSTAL
  | LIFE_USED
  | LIFE_UNUSED
deriving DecidableEq

/-- Grid coordinates `(y, x)`, as in the source's `Coord = Tuple[int, int]`. -/
abbrev Coord := Int × Int

/-- The four compass directions, the keys of the source's `DIRS` dict. -/
inductive Dir where
  | U
  | D
  | L
  | R
deriving DecidableEq

/-- The unit step of each direction: the `DIRS` table `(dy, dx)`. -/
def DIRS : Dir → Int × Int
  | Dir.U => (-1, 0)
  | Dir.D => (1, 0)
  | Dir.L => (0, -1)
  | Dir.R => (0, 1)

/-- The canonical direction iteration order of the source's `for d in "UDLR"`. -/
def UDLR : List Dir := [Dir.U, Dir.D, Dir.L, Dir.R]

/-- Board dimensions (`Config`; energy and lives are outside the engine). -/
structure Config where
  width : Nat
  height : Nat
deriving DecidableEq

/-- `Game.in_bounds`: `0 <= y < height and 0 <= x < width`. -/
def in_bounds (cfg : Config) (y x : Int) : Bool :=
  decide (0 ≤ y) && decide (y < (cfg.height : Int)) &&
  decide (0 ≤ x) && decide (x < (cfg.width : Int))

/-- The board state the engine reads: dimensions plus the author-tile
accessor `tile`.  In the source `tile` reads the `base` grid; the engine
only ever calls it on in-bounds coordinates (all its walks are produced
by `neighbors_line` or by `range(height) x range(width)` loops), so a
total function over those coordinates is a faithful embedding. -/
structure Game where
  cfg : Config
  tile : Int → Int → V

/-- One beam step is blocked exactly by the two block kinds, the test
`t in (V.BLOCK_MOV, V.BLOCK_IMMOV)` of every cast routine. -/
def is_block (t : V) : Bool :=
  match t with
  | V.BLOCK_MOV => true
  | V.BLOCK_IMMOV => true
  | _ => false

/-- Fuel-indexed unfolding of the source's `neighbors_line` generator:
starting one step beyond `(y, x)` in direction `d`, yield coordinates
while they are in bounds and stop at the first out-of-bounds step. -/
def line_aux (cfg : Config) (d : Dir) : Nat → Int → Int → List Coord
  | 0, _, _ => []
  | n + 1, y, x =>
    let p := DIRS d
    let ny := y + p.1
    let nx := x + p.2
    if in_bounds cfg ny nx then (ny, nx) :: line_aux cfg d n ny nx else []

/-- `Game.neighbors_line`.  The fuel `height + width + 1` dominates the
length of any in-bounds run: along a fixed direction the moving
coordinate is strictly monotone inside `[0, dim)`, so the source's
`while` loop performs at most `max height width` iterations. -/
def neighbors_line (g : Game) (y x : Int) (d : Dir) : List Coord :=
  line_aux g.cfg d (g.cfg.height + g.cfg.width + 1) y x

/-- The beam-direction ledger `beams : Dict[Coord, Set[str]]`, embedded as
a total map defaulting to the empty set (a key absent from the Python
dict and a key mapped to the empty set are indistinguishable to the
engine, which only reads entry contents). -/
def BeamMap := Coord → Finset Dir

/-- `beams.setdefault((y, x), set()).add(dir_key)`. -/
def beams_add (bm : BeamMap) (c : Coord) (d : Dir) : BeamMap :=
  fun q => if q = c then insert d (bm q) else bm q

/-- The derived illumination state: the `light_direct` / `light_scatter`
coordinate sets of the `Game` object, threaded explicitly. -/
structure LS where
  direct : Finset Coord
  scatter : Finset Coord
deriving DecidableEq

/-- Walk of `cast_beam_direct` along a precomputed line: a block cell is
added to `direct` and stops the walk; any other cell is added to
`direct`, recorded in the ledger, and the walk continues. -/
def cast_beam_direct_aux (g : Game) (d : Dir) :
    List Coord → Finset Coord → BeamMap → Finset Coord × BeamMap
  | [], direct, bm => (direct, bm)
  | c :: rest, direct, bm =>
    if is_block (g.tile c.1 c.2) then
      (insert c direct, bm)
    else
      cast_beam_direct_aux g d rest (insert c direct) (beams_add bm c d)

/-- `Game.cast_beam_direct(origin, dir_key, beams)`: the walk starts
strictly after the origin cell (`neighbors_line` begins one step out). -/
def cast_beam_direct (g : Game) (origin : Coord) (d : Dir)
    (direct : Finset Coord) (bm : BeamMap) : Finset Coord × BeamMap :=
  cast_beam_direct_aux g d (neighbors_line g origin.1 origin.2 d) direct bm

/-- Row-major enumeration of the grid, the source's
`for y in range(height): for x in range(width)` iteration. -/
def board_coords (g : Game) : List Coord :=
  (List.range g.cfg.height).flatMap fun (y : Nat) =>
    (List.range g.cfg.width).map fun (x : Nat) => ((y : Int), (x : Int))

/-- The first pass of `recompute_light`: cast direct beams from every
cell holding `SOURCE_ON` in all four directions, over cleared light
state and an empty ledger. -/
def source_pass (g : Game) : Finset Coord × BeamMap :=
  (board_coords g).foldl
    (fun acc c =>
      if g.tile c.1 c.2 = V.SOURCE_ON then
        UDLR.foldl (fun a d => cast_beam_direct g c d a.1 a.2) acc
      else acc)
    (∅, fun _ => ∅)

/-- Walk of `cast_scatter_from` along a precomputed line: every visited
cell joins `scatter`; a block cell joins it and stops the walk. -/
def cast_scatter_aux (g : Game) : List Coord → Finset Coord → Finset Coord
  | [], scatter => scatter
  | c :: rest, scatter =>
    if is_block (g.tile c.1 c.2) then
      insert c scatter
    else
      cast_scatter_aux g rest (insert c scatter)

/-- `Game.cast_scatter_from(start, dir_key)`. -/
def cast_scatter_from (g : Game) (start : Coord) (d : Dir)
    (scatter : Finset Coord) : Finset Coord :=
  cast_scatter_aux g (neighbors_line g start.1 start.2 d) scatter

/-- `Game.apply_scattering(beams)`: for every ledger entry holding two or
more distinct directions, issue a scatter cast from that coordinate in
each recorded direction.  The Python loop runs over the dict's items in
insertion order and over each entry's direction set; folding instead over
the grid in row-major order and over the canonical direction list
performs exactly the casts of the same (coordinate, direction) pairs —
every ledger key lies on a cast beam, hence on the grid — and yields the
same final set, because each cast joins a fixed, tile-determined path. -/
def apply_scattering (g : Game) (bm : BeamMap) (scatter : Finset Coord) :
    Finset Coord :=
  (board_coords g).foldl
    (fun s c =>
      if 2 ≤ (bm c).card then
        UDLR.foldl (fun s2 d => if d ∈ bm c then cast_scatter_from g c d s2 else s2) s
      else s)
    scatter

/-- Walk of `cast_direct_line_from`: like the direct cast but without the
ledger, reporting whether any visited coordinate was newly added. -/
def cast_direct_line_aux (g : Game) :
    List Coord → Finset Coord → Bool → Finset Coord × Bool
  | [], direct, changed => (direct, changed)
  | c :: rest, direct, changed =>
    if is_block (g.tile c.1 c.2) then
      (insert c direct, changed || decide (c ∉ direct))
    else
      cast_direct_line_aux g rest (insert c direct) (changed || decide (c ∉ direct))

/-- `Game.cast_direct_line_from(start, dir_key) -> changed`. -/
def cast_direct_line_from (g : Game) (start : Coord) (d : Dir)
    (direct : Finset Coord) : Finset Coord × Bool :=
  cast_direct_line_aux g (neighbors_line g start.1 start.2 d) direct false

/-- Walk of `cast_scatter_line_from`, the scatter twin. -/
def cast_scatter_line_aux (g : Game) :
    List Coord → Finset Coord → Bool → Finset Coord × Bool
  | [], scatter, changed => (scatter, changed)
  | c :: rest, scatter, changed =>
    if is_block (g.tile c.1 c.2) then
      (insert c scatter, changed || decide (c ∉ scatter))
    else
      cast_scatter_line_aux g rest (insert c scatter) (changed || decide (c ∉ scatter))

/-- `Game.cast_scatter_line_from(start, dir_key) -> changed`. -/
def cast_scatter_line_from (g : Game) (start : Coord) (d : Dir)
    (scatter : Finset Coord) : Finset Coord × Bool :=
  cast_scatter_line_aux g (neighbors_line g start.1 start.2 d) scatter false

/-- Emission of one lit crystal: four casts of the class fixed by the
`is_direct` test taken before the direction loop, accumulating `changed`
with `|=` exactly as the source does. -/
def crystal_step (g : Game) (isd : Bool) (c : Coord) (acc : LS × Bool) :
    LS × Bool :=
  UDLR.foldl
    (fun a d =>
      if isd then
        let r := cast_direct_line_from g c d a.1.direct
        (⟨r.1, a.1.scatter⟩, a.2 || r.2)
      else
        let r := cast_scatter_line_from g c d a.1.scatter
        (⟨a.1.direct, r.1⟩, a.2 || r.2))
    acc

/-- Row-major sweep of `apply_crystals` over the grid: every crystal that
is lit in the pass-start snapshot `L` emits; its class is read live from
the current `direct` set (`is_direct = (y, x) in self.light_direct`). -/
def apply_crystals_aux (g : Game) (L : Finset Coord) :
    List Coord → LS × Bool → LS × Bool
  | [], acc => acc
  | c :: rest, acc =>
    if g.tile c.1 c.2 = V.CRYSTAL ∧ c ∈ L then
      apply_crystals_aux g L rest (crystal_step g (decide (c ∈ acc.1.direct)) c acc)
    else
      apply_crystals_aux g L rest acc

/-- `Game.apply_crystals() -> changed`: the lit snapshot
`lit = light_direct | light_scatter` is taken once at pass start. -/
def apply_crystals (g : Game) (ls : LS) : LS × Bool :=
  apply_crystals_aux g (ls.direct ∪ ls.scatter) (board_coords g) (ls, false)

/-- The refraction fixed-point loop of `recompute_light`:
`changed = True; iterations = 0; while changed and iterations < 16: ...`.
With fuel `n` the loop performs at most `n` passes and stops early at the
first pass that reports no change; the source's cap is `16`. -/
def crystal_loop (g : Game) : Nat → LS → LS
  | 0, ls => ls
  | n + 1, ls =>
    let r := apply_crystals g ls
    if r.2 then crystal_loop g n r.1 else r.1

/-- Number of passes the refraction loop executes before stopping
(counting the final pass, the one that reports no change, when the cap
is not hit first). -/
def crystal_loop_count (g : Game) : Nat → LS → Nat
  | 0, _ => 0
  | n + 1, ls =>
    let r := apply_crystals g ls
    if r.2 then crystal_loop_count g n r.1 + 1 else 1

/-- `Game.recompute_light`.  The source first clears both light sets, so
the result is independent of the incoming illumination state `ls`; then
it casts direct beams from all ON sources, applies intersection
scattering, and runs the bounded refraction loop. -/
def recompute_light (g : Game) (ls : LS) : LS :=
  let _cleared : LS := { ls with direct := ∅, scatter := ∅ }
  let sp := source_pass g
  crystal_loop g 16 ⟨sp.1, apply_scattering g sp.2 _cleared.scatter⟩

/-- Number of refraction passes performed inside one `recompute_light`. -/
def recompute_pass_count (g : Game) : Nat :=
  let sp := source_pass g
  crystal_loop_count g 16 ⟨sp.1, apply_scattering g sp.2 ∅⟩

/-- Number of crystal cells on the board. -/
def crystal_count (g : Game) : Nat :=
  ((board_coords g).filter fun c => decide (g.tile c.1 c.2 = V.CRYSTAL)).length

/-- The locking sweep of `after_change`: every coordinate of the direct
set whose tile is `BLOCK_MOV` is mutated to `BLOCK_IMMOV`.  The Python
loop visits the direct set's elements in some order; the mutations are
pointwise independent (each reads and writes only its own cell), so the
resulting board is this pointwise update. -/
def lock_blocks (g : Game) (direct : Finset Coord) : Game :=
  { g with tile := fun y x =>
      if (y, x) ∈ direct ∧ g.tile y x = V.BLOCK_MOV then V.BLOCK_IMMOV
      else g.tile y x }

/-- `Game.after_change`: recompute, lock movable blocks under direct
light, recompute again (the post-lock illumination). -/
def after_change (g : Game) (ls : LS) : Game × LS :=
  let ls1 := recompute_light g ls
  let g2 := lock_blocks g ls1.direct
  (g2, recompute_light g2 ls1)

/-! ### Python list indexing, for the `Game.tile` accessor contract

`Game.tile` reads `self.base[y][x]` with no bounds check of its own.
Python list subscripting resolves a negative index `i` with
`-len <= i < 0` to offset `len + i`, and raises `IndexError` for any
other out-of-range index.  `py_get` embeds exactly that semantics, with
`none` standing for the raised `IndexError`. -/
def py_get {α : Type} (l : List α) (i : Int) : Option α :=
  let j : Int := if i < 0 then (l.length : Int) + i else i
  if 0 ≤ j ∧ j < (l.length : Int) then l.get? j.toNat else none

/-- `Game.tile(y, x) = V(self.base[y][x])` over the stored row grid. -/
def tile_py (base : List (List V)) (y x : Int) : Option V :=
  (py_get base y).bind fun row => py_get row x

/-! ### Verification infrastructure

The following definitions do not embed further source functions; they
name derived quantities of the embedding above that the theorems talk
about (the cells a cast covers, a crystal's total emission, saturation
measures for the fixed-point argument) and the concrete boards used as
witnesses. -/

/-- The cells a cast walking the given line covers: everything up to and
including the first block, which terminates the walk. -/
def line_path (g : Game) : List Coord → List Coord
  | [] => []
  | c :: rest =>
    if is_block (g.tile c.1 c.2) then [c] else c :: line_path g rest

/-- The set of cells covered by one cast from `c` in direction `d`. -/
def beam_path_set (g : Game) (c : Coord) (d : Dir) : Finset Coord :=
  (line_path g (neighbors_line g c.1 c.2 d)).toFinset

/-- The total emission of a crystal at `c`: the cells covered by its four
casts (both classes walk identical paths, so one set serves both). -/
def emit_set (g : Game) (c : Coord) : Finset Coord :=
  UDLR.foldl (fun s d => s ∪ beam_path_set g c d) ∅

/-- The board's crystal cells, as a finite set. -/
def crystal_finset (g : Game) : Finset Coord :=
  ((board_coords g).filter fun c => decide (g.tile c.1 c.2 = V.CRYSTAL)).toFinset

/-- Crystals whose whole emission is already direct-lit in `ls`. -/
def direct_sat (g : Game) (ls : LS) : Finset Coord :=
  (crystal_finset g).filter fun c => emit_set g c ⊆ ls.direct

/-- Crystals whose whole emission is already scatter-lit in `ls`. -/
def scatter_sat (g : Game) (ls : LS) : Finset Coord :=
  (crystal_finset g).filter fun c => emit_set g c ⊆ ls.scatter

/-- The illumination state after `n` refraction passes, starting from the
post-scattering state `ls`. -/
def loop_state (g : Game) (ls : LS) : Nat → LS
  | 0 => ls
  | n + 1 => (apply_crystals g (loop_state g ls n)).1

/-- Scenario A's board: 5x5, all `BG` except `SOURCE_ON` at `(2, 0)`. -/
def ex_scenario_a : Game :=
  ⟨⟨5, 5⟩, fun y x => if y = 2 ∧ x = 0 then V.SOURCE_ON else V.BG⟩

/-- A 1x2 board: `SOURCE_ON` at `(0, 0)`, `BLOCK_MOV` elsewhere. -/
def ex_lock : Game :=
  ⟨⟨2, 1⟩, fun y x => if y = 0 ∧ x = 0 then V.SOURCE_ON else V.BLOCK_MOV⟩

/-- A 3x3 board with crossing sources at `(1, 0)` and `(0, 1)`: their
beams meet at `(1, 1)`, which therefore carries two ledger directions. -/
def ex_cross : Game :=
  ⟨⟨3, 3⟩, fun y x =>
    if (y = 1 ∧ x = 0) ∨ (y = 0 ∧ x = 1) then V.SOURCE_ON else V.BG⟩

/-- A 1x3 board with a `BLOCK_MOV` at `(0, 1)` and `BG` elsewhere. -/
def ex_wall : Game :=
  ⟨⟨3, 1⟩, fun y x => if y = 0 ∧ x = 1 then V.BLOCK_MOV else V.BG⟩

/-- A 1x2 board: `SOURCE_ON` at `(0, 0)` and a `CRYSTAL` at `(0, 1)`. -/
def ex_crystal : Game :=
  ⟨⟨2, 1⟩, fun y x =>
    if y = 0 ∧ x = 0 then V.SOURCE_ON
    else if y = 0 ∧ x = 1 then V.CRYSTAL else V.BG⟩

/-- A 2x2 author grid with a `CRYSTAL` at `(1, 0)`, stored as the row
list that `Game.base` holds. -/
def ex_base : List (List V) := [[V.BG, V.BG], [V.CRYSTAL, V.BG]]

/-! ## Theorems -/

theorem after_change_fst (g : Game) (ls : LS) :
    (after_change g ls).1 = lock_blocks g (recompute_light g ls).direct := rfl

theorem lock_blocks_tile (g : Game) (D : Finset Coord) (y x : Int) :
    (lock_blocks g D).tile y x =
      if (y, x) ∈ D ∧ g.tile y x = V.BLOCK_MOV then V.BLOCK_IMMOV
      else g.tile y x := rfl

/-- Claim C1: on the 5x5 board that is empty except for `SourceOn` at
`(2, 0)`, recomputation produces exactly the row and column cells beyond
the source as direct light, an empty scatter set, and does not light the
source's own cell. -/
theorem scenario_a_illumination :
    (recompute_light ex_scenario_a ⟨∅, ∅⟩).direct =
      ({((2 : Int), (1 : Int)), (2, 2), (2, 3), (2, 4),
        (1, 0), (0, 0), (3, 0), (4, 0)} : Finset Coord) ∧
    (recompute_light ex_scenario_a ⟨∅, ∅⟩).scatter = ∅ ∧
    ((2 : Int), (0 : Int)) ∉ (recompute_light ex_scenario_a ⟨∅, ∅⟩).direct ∧
    ((2 : Int), (0 : Int)) ∉ (recompute_light ex_scenario_a ⟨∅, ∅⟩).scatter :=
  ⟨by decide, by decide, by decide, by decide⟩

/-- Claim C4: every coordinate of the recomputed direct set that holds a
`BLOCK_MOV` holds `BLOCK_IMMOV` after `after_change`, and a second
`after_change` on the resulting board leaves it `BLOCK_IMMOV`: the
movable-to-immovable transition is one-way. -/
theorem lock_one_way (g : Game) (ls : LS) (y x : Int)
    (hmem : (y, x) ∈ (recompute_light g ls).direct)
    (hmov : g.tile y x = V.BLOCK_MOV) :
    (after_change g ls).1.tile y x = V.BLOCK_IMMOV ∧
    (after_change (after_change g ls).1 (after_change g ls).2).1.tile y x =
      V.BLOCK_IMMOV := by
  have h1 : (after_change g ls).1.tile y x = V.BLOCK_IMMOV := by
    rw [after_change_fst, lock_blocks_tile, if_pos ⟨hmem, hmov⟩]
  refine ⟨h1, ?_⟩
  rw [after_change_fst, lock_blocks_tile]
  have hno : ¬ (((y, x) ∈
      (recompute_light (after_change g ls).1 (after_change g ls).2).direct) ∧
      (after_change g ls).1.tile y x = V.BLOCK_MOV) := by
    intro h
    rw [h1] at h
    exact absurd h.2 (by intro hbad; cases hbad)
  rw [if_neg hno, h1]

theorem lock_one_way_witness :
    (after_change ex_lock ⟨∅, ∅⟩).1.tile 0 1 = V.BLOCK_IMMOV ∧
    (after_change (after_change ex_lock ⟨∅, ∅⟩).1
      (after_change ex_lock ⟨∅, ∅⟩).2).1.tile 0 1 = V.BLOCK_IMMOV :=
  lock_one_way ex_lock ⟨∅, ∅⟩ 0 1 (by decide) (by decide)

/-- Claim C10: `after_change` mutates the board only at coordinates of
the recomputed direct set holding `BLOCK_MOV`; any cell whose kind
changed was such a cell and became `BLOCK_IMMOV` — every other cell
keeps its kind. -/
theorem lock_frame_condition (g : Game) (ls : LS) (y x : Int)
    (hne : (after_change g ls).1.tile y x ≠ g.tile y x) :
    (y, x) ∈ (recompute_light g ls).direct ∧
    g.tile y x = V.BLOCK_MOV ∧
    (after_change g ls).1.tile y x = V.BLOCK_IMMOV := by
  rw [after_change_fst, lock_blocks_tile] at hne ⊢
  by_cases h : ((y, x) ∈ (recompute_light g ls).direct ∧
      g.tile y x = V.BLOCK_MOV)
  · rw [if_pos h]
    exact ⟨h.1, h.2, rfl⟩
  · rw [if_neg h] at hne
    exact absurd rfl hne

theorem lock_frame_condition_witness :
    ((0 : Int), (1 : Int)) ∈ (recompute_light ex_lock ⟨∅, ∅⟩).direct ∧
    ex_lock.tile 0 1 = V.BLOCK_MOV ∧
    (after_change ex_lock ⟨∅, ∅⟩).1.tile 0 1 = V.BLOCK_IMMOV :=
  lock_frame_condition ex_lock ⟨∅, ∅⟩ 0 1 (by decide)

/-- Claim C7: `recompute_light` clears both light sets before rebuilding
them from the board alone, so it is deterministic — its result does not
depend on the incoming illumination state — and idempotent: recomputing
on the unchanged board reproduces the same sets. -/
theorem recompute_idempotent_deterministic (g : Game) (a b : LS) :
    recompute_light g (recompute_light g a) = recompute_light g a ∧
    recompute_light g a = recompute_light g b :=
  ⟨rfl, rfl⟩

/-- Every coordinate of a line lies strictly beyond its origin: it is the
origin displaced by `k >= 1` unit steps of the direction. -/
theorem mem_line_aux (cfg : Config) (d : Dir) :
    ∀ (n : Nat) (y x : Int) (c : Coord), c ∈ line_aux cfg d n y x →
      ∃ k : Nat, 1 ≤ k ∧ c.1 = y + (k : Int) * (DIRS d).1 ∧
        c.2 = x + (k : Int) * (DIRS d).2 := by
  intro n
  induction n with
  | zero => intro y x c h; simp [line_aux] at h
  | succ n ih =>
    intro y x c h
    rw [line_aux] at h
    by_cases hb :
        in_bounds cfg (y + (DIRS d).1) (x + (DIRS d).2) = true
    · rw [if_pos hb] at h
      rcases List.mem_cons.mp h with hc | hc
      · exact ⟨1, le_refl 1, by simp [hc], by simp [hc]⟩
      · obtain ⟨k, hk, h1, h2⟩ := ih (y + (DIRS d).1) (x + (DIRS d).2) c hc
        refine ⟨k + 1, by omega, ?_, ?_⟩
        · rw [h1]; push_cast; ring
        · rw [h2]; push_cast; ring
    · rw [if_neg hb] at h
      simp at h

/-- Each direction's unit step moves on exactly one axis, so a strictly
later line cell never coincides with an earlier one. -/
theorem line_aux_nodup (cfg : Config) (d : Dir) :
    ∀ (n : Nat) (y x : Int), (line_aux cfg d n y x).Nodup := by
  intro n
  induction n with
  | zero => intro y x; simp [line_aux]
  | succ n ih =>
    intro y x
    rw [line_aux]
    by_cases hb :
        in_bounds cfg (y + (DIRS d).1) (x + (DIRS d).2) = true
    · rw [if_pos hb]
      refine List.nodup_cons.mpr ⟨?_, ih _ _⟩
      intro hmem
      obtain ⟨k, hk, h1, h2⟩ := mem_line_aux cfg d n _ _ _ hmem
      have e1 : (k : Int) * (DIRS d).1 = 0 := by
        have := h1
        simp only [self_eq_add_right] at this
        exact this
      have e2 : (k : Int) * (DIRS d).2 = 0 := by
        have := h2
        simp only [self_eq_add_right] at this
        exact this
      cases d <;> simp [DIRS] at e1 e2 <;> omega
    · rw [if_neg hb]; exact List.nodup_nil

theorem neighbors_line_nodup (g : Game) (y x : Int) (d : Dir) :
    (neighbors_line g y x d).Nodup :=
  line_aux_nodup g.cfg d _ y x

/-- Every line coordinate is in bounds (the walk stops at the first
out-of-bounds step). -/
theorem mem_line_aux_in_bounds (cfg : Config) (d : Dir) :
    ∀ (n : Nat) (y x : Int) (c : Coord), c ∈ line_aux cfg d n y x →
      in_bounds cfg c.1 c.2 = true := by
  intro n
  induction n with
  | zero => intro y x c h; simp [line_aux] at h
  | succ n ih =>
    intro y x c h
    rw [line_aux] at h
    by_cases hb :
        in_bounds cfg (y + (DIRS d).1) (x + (DIRS d).2) = true
    · rw [if_pos hb] at h
      rcases List.mem_cons.mp h with hc | hc
      · rw [hc]; exact hb
      · exact ih _ _ _ hc
    · rw [if_neg hb] at h
      simp at h

/-- The direct set produced by a source cast is the incoming set joined
with the cells of the walked path. -/
theorem cast_beam_direct_aux_fst (g : Game) (d : Dir) :
    ∀ (l : List Coord) (D : Finset Coord) (bm : BeamMap),
      (cast_beam_direct_aux g d l D bm).1 = D ∪ (line_path g l).toFinset := by
  intro l
  induction l with
  | nil => intro D bm; simp [cast_beam_direct_aux, line_path]
  | cons c rest ih =>
    intro D bm
    by_cases hb : is_block (g.tile c.1 c.2) = true
    · simp only [cast_beam_direct_aux, line_path, hb, if_true]
      rw [show ([c] : List Coord).toFinset = {c} from rfl, Finset.union_comm,
        Finset.insert_eq]
    · rw [Bool.not_eq_true] at hb
      simp only [cast_beam_direct_aux, line_path, hb, Bool.false_eq_true,
        if_false]
      rw [ih]
      simp [Finset.insert_union, Finset.union_insert]

/-- The scatter set produced by a scatter cast is the incoming set joined
with the cells of the walked path. -/
theorem cast_scatter_aux_eq (g : Game) :
    ∀ (l : List Coord) (S : Finset Coord),
      cast_scatter_aux g l S = S ∪ (line_path g l).toFinset := by
  intro l
  induction l with
  | nil => intro S; simp [cast_scatter_aux, line_path]
  | cons c rest ih =>
    intro S
    by_cases hb : is_block (g.tile c.1 c.2) = true
    · simp only [cast_scatter_aux, line_path, hb, if_true]
      rw [show ([c] : List Coord).toFinset = {c} from rfl, Finset.union_comm,
        Finset.insert_eq]
    · rw [Bool.not_eq_true] at hb
      simp only [cast_scatter_aux, line_path, hb, Bool.false_eq_true,
        if_false]
      rw [ih]
      simp [Finset.insert_union, Finset.union_insert]

/-- A walk over block-free cells followed by a block covers exactly those
cells and the block. -/
theorem line_path_through (g : Game) :
    ∀ (pre : List Coord) (p : Coord) (post : List Coord),
      (∀ q ∈ pre, is_block (g.tile q.1 q.2) = false) →
      is_block (g.tile p.1 p.2) = true →
      line_path g (pre ++ p :: post) = pre ++ [p] := by
  intro pre
  induction pre with
  | nil =>
    intro p post _ hp
    simp [line_path, hp]
  | cons a rest ih =>
    intro p post hpre hp
    have ha : is_block (g.tile a.1 a.2) = false :=
      hpre a (List.mem_cons_self a rest)
    simp only [List.cons_append, line_path, ha, Bool.false_eq_true, if_false,
      List.append_eq]
    rw [ih p post (fun q hq => hpre q (List.mem_cons_of_mem a hq)) hp]

/-- Claim C2: a direct source cast that meets a block (movable or
immovable) adds the block's coordinate to the direct set and adds no
coordinate lying strictly beyond the block in the cast direction: the
walk covers the block-free prefix and the block, nothing further. -/
theorem cast_beam_direct_block_opacity (g : Game) (origin : Coord) (d : Dir)
    (D : Finset Coord) (bm : BeamMap) (pre : List Coord) (p : Coord)
    (post : List Coord)
    (hline : neighbors_line g origin.1 origin.2 d = pre ++ p :: post)
    (hpre : ∀ q ∈ pre, is_block (g.tile q.1 q.2) = false)
    (hp : is_block (g.tile p.1 p.2) = true) :
    p ∈ (cast_beam_direct g origin d D bm).1 ∧
    ∀ q ∈ post, q ∉ D → q ∉ (cast_beam_direct g origin d D bm).1 := by
  have hchar : (cast_beam_direct g origin d D bm).1 =
      D ∪ (pre.toFinset ∪ {p}) := by
    rw [cast_beam_direct, cast_beam_direct_aux_fst, hline,
      line_path_through g pre p post hpre hp]
    simp
  have hnodup : (pre ++ p :: post).Nodup := by
    rw [← hline]; exact neighbors_line_nodup g origin.1 origin.2 d
  rw [List.nodup_append] at hnodup
  obtain ⟨-, hcons, hdisj⟩ := hnodup
  rw [List.nodup_cons] at hcons
  constructor
  · rw [hchar]; simp
  · intro q hq hqD
    rw [hchar]
    simp only [Finset.mem_union, Finset.mem_singleton, List.mem_toFinset]
    rintro (hD | hpre2 | hqp)
    · exact hqD hD
    · exact hdisj hpre2 (List.mem_cons_of_mem p hq)
    · exact hcons.1 (hqp ▸ hq)

theorem cast_beam_direct_block_opacity_witness :
    ((0 : Int), (1 : Int)) ∈
      (cast_beam_direct ex_wall (0, 0) Dir.R ∅ (fun _ => ∅)).1 ∧
    ((0 : Int), (2 : Int)) ∉
      (cast_beam_direct ex_wall (0, 0) Dir.R ∅ (fun _ => ∅)).1 := by
  have h := cast_beam_direct_block_opacity ex_wall (0, 0) Dir.R ∅
    (fun _ => ∅) [] ((0 : Int), (1 : Int)) [((0 : Int), (2 : Int))]
    (by decide) (by simp) (by decide)
  exact ⟨h.1, h.2 ((0 : Int), (2 : Int)) (by simp) (by simp)⟩

/-- The head of a walk is always covered by it. -/
theorem head_mem_line_path (g : Game) (p : Coord) (rest : List Coord) :
    p ∈ line_path g (p :: rest) := by
  rw [line_path]
  by_cases hb : is_block (g.tile p.1 p.2) = true
  · rw [if_pos hb]; exact List.mem_singleton.mpr rfl
  · rw [if_neg hb]; exact List.mem_cons_self p _

/-- Claim C8: a traversed cell holding a source (on or off), empty
background or a crystal is added to the beam's target set and the walk
continues past it, for both the direct and the scatter cast; a cell
terminates the walk exactly when it holds one of the two block kinds,
and even then it is itself added. -/
theorem beam_transparency (g : Game) (d : Dir) (p : Coord)
    (rest : List Coord) (D S : Finset Coord) (bm : BeamMap) :
    (g.tile p.1 p.2 = V.BG ∨ g.tile p.1 p.2 = V.CRYSTAL ∨
      g.tile p.1 p.2 = V.SOURCE_ON ∨ g.tile p.1 p.2 = V.SOURCE_OFF →
      is_block (g.tile p.1 p.2) = false) ∧
    (is_block (g.tile p.1 p.2) = false →
      cast_beam_direct_aux g d (p :: rest) D bm =
        cast_beam_direct_aux g d rest (insert p D) (beams_add bm p d) ∧
      cast_scatter_aux g (p :: rest) S = cast_scatter_aux g rest (insert p S)) ∧
    (is_block (g.tile p.1 p.2) = true →
      cast_beam_direct_aux g d (p :: rest) D bm = (insert p D, bm) ∧
      cast_scatter_aux g (p :: rest) S = insert p S) ∧
    p ∈ (cast_beam_direct_aux g d (p :: rest) D bm).1 ∧
    p ∈ cast_scatter_aux g (p :: rest) S := by
  refine ⟨?_, ?_, ?_, ?_, ?_⟩
  · rintro (h | h | h | h) <;> rw [h] <;> rfl
  · intro h
    constructor <;> simp [cast_beam_direct_aux, cast_scatter_aux, h]
  · intro h
    constructor <;> simp [cast_beam_direct_aux, cast_scatter_aux, h]
  · rw [cast_beam_direct_aux_fst]
    exact Finset.mem_union_right D
      (List.mem_toFinset.mpr (head_mem_line_path g p rest))
  · rw [cast_scatter_aux_eq]
    exact Finset.mem_union_right S
      (List.mem_toFinset.mpr (head_mem_line_path g p rest))

theorem beam_transparency_witness :
    cast_beam_direct_aux ex_wall Dir.R [((0 : Int), (2 : Int))] ∅
        (fun _ => ∅) =
      cast_beam_direct_aux ex_wall Dir.R [] (insert ((0 : Int), (2 : Int)) ∅)
        (beams_add (fun _ => ∅) ((0 : Int), (2 : Int)) Dir.R) ∧
    ((0 : Int), (2 : Int)) ∈
      (cast_beam_direct_aux ex_wall Dir.R [((0 : Int), (2 : Int))] ∅
        (fun _ => ∅)).1 := by
  have h := beam_transparency ex_wall Dir.R ((0 : Int), (2 : Int)) [] ∅ ∅
    (fun _ => ∅)
  exact ⟨(h.2.1 (by decide)).1, h.2.2.2.1⟩

/-- Claim C9: contrary to the specified fail-fast contract, the `tile`
accessor does not reject every out-of-range coordinate: Python's
negative-index semantics silently resolves `y = -1` (out of bounds) to
the last row, returning that row's cell; only indices past either end
raise.  On `ex_base` (2x2, crystal at `(1, 0)`): `tile(-1, 0)` yields
the crystal although `in_bounds(-1, 0)` is false. -/
theorem tile_out_of_range_negative_wrap :
    in_bounds ⟨2, 2⟩ (-1) 0 = false ∧
    tile_py ex_base (-1) 0 = some V.CRYSTAL ∧
    in_bounds ⟨2, 2⟩ 0 (-1) = false ∧
    tile_py ex_base 0 (-1) = some V.BG ∧
    tile_py ex_base 2 0 = none :=
  ⟨by decide, by decide, by decide, by decide, by decide⟩

theorem LS_ext (a b : LS) (h1 : a.direct = b.direct)
    (h2 : a.scatter = b.scatter) : a = b := by
  cases a; cases b; cases h1; cases h2; rfl

/-- The direct set of a refraction direct cast is the incoming set joined
with the walked path. -/
theorem cast_direct_line_aux_fst (g : Game) :
    ∀ (l : List Coord) (D : Finset Coord) (ch : Bool),
      (cast_direct_line_aux g l D ch).1 = D ∪ (line_path g l).toFinset := by
  intro l
  induction l with
  | nil => intro D ch; simp [cast_direct_line_aux, line_path]
  | cons c rest ih =>
    intro D ch
    by_cases hb : is_block (g.tile c.1 c.2) = true
    · simp only [cast_direct_line_aux, line_path, hb, if_true]
      rw [show ([c] : List Coord).toFinset = {c} from rfl, Finset.union_comm,
        Finset.insert_eq]
    · rw [Bool.not_eq_true] at hb
      simp only [cast_direct_line_aux, line_path, hb, Bool.false_eq_true,
        if_false]
      rw [ih]
      simp [Finset.insert_union, Finset.union_insert]

/-- The changed bit of a refraction direct cast reports exactly whether
some cell of the walked path was not yet direct-lit. -/
theorem cast_direct_line_aux_snd (g : Game) :
    ∀ (l : List Coord) (D : Finset Coord) (ch : Bool),
      (cast_direct_line_aux g l D ch).2 =
        (ch || decide (¬ (line_path g l).toFinset ⊆ D)) := by
  intro l
  induction l with
  | nil => intro D ch; simp [cast_direct_line_aux, line_path]
  | cons c rest ih =>
    intro D ch
    by_cases hb : is_block (g.tile c.1 c.2) = true
    · simp [cast_direct_line_aux, line_path, hb, Finset.singleton_subset_iff]
    · rw [Bool.not_eq_true] at hb
      simp only [cast_direct_line_aux, line_path, hb, Bool.false_eq_true,
        if_false]
      rw [ih]
      by_cases hc : c ∈ D
      · simp [hc, Finset.insert_eq_self.mpr hc, Finset.insert_subset_iff]
      · simp [hc, Finset.insert_subset_iff]

/-- The scatter twin of `cast_direct_line_aux_fst`. -/
theorem cast_scatter_line_aux_fst (g : Game) :
    ∀ (l : List Coord) (S : Finset Coord) (ch : Bool),
      (cast_scatter_line_aux g l S ch).1 = S ∪ (line_path g l).toFinset := by
  intro l
  induction l with
  | nil => intro S ch; simp [cast_scatter_line_aux, line_path]
  | cons c rest ih =>
    intro S ch
    by_cases hb : is_block (g.tile c.1 c.2) = true
    · simp only [cast_scatter_line_aux, line_path, hb, if_true]
      rw [show ([c] : List Coord).toFinset = {c} from rfl, Finset.union_comm,
        Finset.insert_eq]
    · rw [Bool.not_eq_true] at hb
      simp only [cast_scatter_line_aux, line_path, hb, Bool.false_eq_true,
        if_false]
      rw [ih]
      simp [Finset.insert_union, Finset.union_insert]

/-- The scatter twin of `cast_direct_line_aux_snd`. -/
theorem cast_scatter_line_aux_snd (g : Game) :
    ∀ (l : List Coord) (S : Finset Coord) (ch : Bool),
      (cast_scatter_line_aux g l S ch).2 =
        (ch || decide (¬ (line_path g l).toFinset ⊆ S)) := by
  intro l
  induction l with
  | nil => intro S ch; simp [cast_scatter_line_aux, line_path]
  | cons c rest ih =>
    intro S ch
    by_cases hb : is_block (g.tile c.1 c.2) = true
    · simp [cast_scatter_line_aux, line_path, hb, Finset.singleton_subset_iff]
    · rw [Bool.not_eq_true] at hb
      simp only [cast_scatter_line_aux, line_path, hb, Bool.false_eq_true,
        if_false]
      rw [ih]
      by_cases hc : c ∈ S
      · simp [hc, Finset.insert_eq_self.mpr hc, Finset.insert_subset_iff]
      · simp [hc, Finset.insert_subset_iff]

theorem cast_direct_line_from_eq (g : Game) (start : Coord) (d : Dir)
    (D : Finset Coord) :
    cast_direct_line_from g start d D =
      (D ∪ beam_path_set g start d,
       decide (¬ beam_path_set g start d ⊆ D)) := by
  rw [cast_direct_line_from]
  refine Prod.ext ?_ ?_
  · rw [cast_direct_line_aux_fst]; rfl
  · rw [cast_direct_line_aux_snd, Bool.false_or]; rfl

theorem cast_scatter_line_from_eq (g : Game) (start : Coord) (d : Dir)
    (S : Finset Coord) :
    cast_scatter_line_from g start d S =
      (S ∪ beam_path_set g start d,
       decide (¬ beam_path_set g start d ⊆ S)) := by
  rw [cast_scatter_line_from]
  refine Prod.ext ?_ ?_
  · rw [cast_scatter_line_aux_fst]; rfl
  · rw [cast_scatter_line_aux_snd, Bool.false_or]; rfl

/-- Subset decomposition used to read the four accumulated casts of one
crystal as a single joined emission. -/
theorem union_subset_step (A B C : Finset Coord) :
    A ∪ B ⊆ C ↔ A ⊆ C ∧ B ⊆ C ∪ A := by
  constructor
  · intro h
    exact ⟨Finset.subset_union_left.trans h,
      (Finset.subset_union_right.trans h).trans Finset.subset_union_left⟩
  · rintro ⟨h1, h2⟩
    have h3 : C ∪ A = C := Finset.union_eq_left.mpr h1
    rw [h3] at h2
    exact Finset.union_subset h1 h2

/-- A crystal's emission is contained in a set exactly when each of its
four directional paths is. -/
theorem emit_set_subset_iff (g : Game) (c : Coord) (D : Finset Coord) :
    emit_set g c ⊆ D ↔
      (beam_path_set g c Dir.U ⊆ D ∧ beam_path_set g c Dir.D ⊆ D ∧
       beam_path_set g c Dir.L ⊆ D ∧ beam_path_set g c Dir.R ⊆ D) := by
  simp [emit_set, UDLR, Finset.union_subset_iff, and_assoc]

/-- The four-cast chain condition collapses to plain containment of the
emission. -/
theorem emit_subset_chain (g : Game) (c : Coord) (S : Finset Coord) :
    emit_set g c ⊆ S ↔
      (beam_path_set g c Dir.U ⊆ S ∧
       beam_path_set g c Dir.D ⊆ S ∪ beam_path_set g c Dir.U ∧
       beam_path_set g c Dir.L ⊆
         (S ∪ beam_path_set g c Dir.U) ∪ beam_path_set g c Dir.D ∧
       beam_path_set g c Dir.R ⊆
         ((S ∪ beam_path_set g c Dir.U) ∪ beam_path_set g c Dir.D) ∪
           beam_path_set g c Dir.L) := by
  rw [emit_set_subset_iff]
  constructor
  · rintro ⟨h1, h2, h3, h4⟩
    exact ⟨h1, h2.trans Finset.subset_union_left,
      h3.trans (Finset.subset_union_left.trans Finset.subset_union_left),
      h4.trans ((Finset.subset_union_left.trans
        Finset.subset_union_left).trans Finset.subset_union_left)⟩
  · rintro ⟨h1, h2, h3, h4⟩
    have e1 : S ∪ beam_path_set g c Dir.U = S := Finset.union_eq_left.mpr h1
    rw [e1] at h2 h3 h4
    have e2 : S ∪ beam_path_set g c Dir.D = S := Finset.union_eq_left.mpr h2
    rw [e2] at h3 h4
    have e3 : S ∪ beam_path_set g c Dir.L = S := Finset.union_eq_left.mpr h3
    rw [e3] at h4
    exact ⟨h1, h2, h3, h4⟩

/-- State effect of one crystal's four casts: the class selected by
`is_direct` gains the crystal's whole emission, the other class is
untouched. -/
theorem crystal_step_state (g : Game) (isd : Bool) (c : Coord) (ls : LS)
    (b : Bool) :
    (crystal_step g isd c (ls, b)).1 =
      if isd then ⟨ls.direct ∪ emit_set g c, ls.scatter⟩
      else ⟨ls.direct, ls.scatter ∪ emit_set g c⟩ := by
  cases isd
  · simp only [crystal_step, UDLR, List.foldl_cons, List.foldl_nil,
      cast_scatter_line_from_eq, Bool.false_eq_true, if_false]
    refine LS_ext _ _ rfl ?_
    simp [emit_set, UDLR, Finset.union_assoc]
  · simp only [crystal_step, UDLR, List.foldl_cons, List.foldl_nil,
      cast_direct_line_from_eq, if_true]
    refine LS_ext _ _ ?_ rfl
    simp [emit_set, UDLR, Finset.union_assoc]

/-- Flag effect of one crystal's four casts: the changed bit is raised
exactly when the emission was not already contained in the target set. -/
theorem crystal_step_snd (g : Game) (isd : Bool) (c : Coord) (ls : LS)
    (b : Bool) :
    (crystal_step g isd c (ls, b)).2 =
      (b || decide (¬ emit_set g c ⊆
        (if isd then ls.direct else ls.scatter))) := by
  cases isd
  · simp only [crystal_step, UDLR, List.foldl_cons, List.foldl_nil,
      cast_scatter_line_from_eq, Bool.false_eq_true, if_false]
    by_cases h1 : beam_path_set g c Dir.U ⊆ ls.scatter <;>
      by_cases h2 : beam_path_set g c Dir.D ⊆
        ls.scatter ∪ beam_path_set g c Dir.U <;>
      by_cases h3 : beam_path_set g c Dir.L ⊆
        (ls.scatter ∪ beam_path_set g c Dir.U) ∪ beam_path_set g c Dir.D <;>
      by_cases h4 : beam_path_set g c Dir.R ⊆
        ((ls.scatter ∪ beam_path_set g c Dir.U) ∪ beam_path_set g c Dir.D) ∪
          beam_path_set g c Dir.L <;>
      simp [h1, h2, h3, h4, emit_subset_chain, Bool.or_assoc]
  · simp only [crystal_step, UDLR, List.foldl_cons, List.foldl_nil,
      cast_direct_line_from_eq, if_true]
    by_cases h1 : beam_path_set g c Dir.U ⊆ ls.direct <;>
      by_cases h2 : beam_path_set g c Dir.D ⊆
        ls.direct ∪ beam_path_set g c Dir.U <;>
      by_cases h3 : beam_path_set g c Dir.L ⊆
        (ls.direct ∪ beam_path_set g c Dir.U) ∪ beam_path_set g c Dir.D <;>
      by_cases h4 : beam_path_set g c Dir.R ⊆
        ((ls.direct ∪ beam_path_set g c Dir.U) ∪ beam_path_set g c Dir.D) ∪
          beam_path_set g c Dir.L <;>
      simp [h1, h2, h3, h4, emit_subset_chain, Bool.or_assoc]

theorem crystal_step_mono (g : Game) (isd : Bool) (c : Coord) (ls : LS)
    (b : Bool) :
    ls.direct ⊆ (crystal_step g isd c (ls, b)).1.direct ∧
    ls.scatter ⊆ (crystal_step g isd c (ls, b)).1.scatter := by
  rw [crystal_step_state]
  cases isd
  · simp only [Bool.false_eq_true, if_false]
    exact ⟨subset_rfl, Finset.subset_union_left⟩
  · simp only [if_true]
    exact ⟨Finset.subset_union_left, subset_rfl⟩

/-- One refraction pass only adds coordinates to either set. -/
theorem apply_crystals_aux_mono (g : Game) (L : Finset Coord) :
    ∀ (cs : List Coord) (acc : LS × Bool),
      acc.1.direct ⊆ (apply_crystals_aux g L cs acc).1.direct ∧
      acc.1.scatter ⊆ (apply_crystals_aux g L cs acc).1.scatter := by
  intro cs
  induction cs with
  | nil => intro acc; exact ⟨subset_rfl, subset_rfl⟩
  | cons c rest ih =>
    intro acc
    rw [apply_crystals_aux]
    by_cases h : (g.tile c.1 c.2 = V.CRYSTAL ∧ c ∈ L)
    · rw [if_pos h]
      obtain ⟨i1, i2⟩ :=
        ih (crystal_step g (decide (c ∈ acc.1.direct)) c acc)
      obtain ⟨m1, m2⟩ :=
        crystal_step_mono g (decide (c ∈ acc.1.direct)) c acc.1 acc.2
      exact ⟨m1.trans i1, m2.trans i2⟩
    · rw [if_neg h]
      exact ih acc

theorem apply_crystals_mono (g : Game) (ls : LS) :
    ls.direct ⊆ (apply_crystals g ls).1.direct ∧
    ls.scatter ⊆ (apply_crystals g ls).1.scatter :=
  apply_crystals_aux_mono g (ls.direct ∪ ls.scatter) (board_coords g) (ls, false)

theorem crystal_loop_mono (g : Game) :
    ∀ (n : Nat) (ls : LS),
      ls.direct ⊆ (crystal_loop g n ls).direct ∧
      ls.scatter ⊆ (crystal_loop g n ls).scatter := by
  intro n
  induction n with
  | zero => intro ls; exact ⟨subset_rfl, subset_rfl⟩
  | succ n ih =>
    intro ls
    rw [crystal_loop]
    obtain ⟨m1, m2⟩ := apply_crystals_mono g ls
    by_cases h : (apply_crystals g ls).2 = true
    · rw [if_pos h]
      obtain ⟨i1, i2⟩ := ih (apply_crystals g ls).1
      exact ⟨m1.trans i1, m2.trans i2⟩
    · rw [Bool.not_eq_true] at h
      rw [h, if_neg (by simp)]
      exact ⟨m1, m2⟩

/-- Claim C5: across the refraction fixed-point iterations the `direct`
and `scatter` sets grow monotonically — a single crystal pass only adds
coordinates, and so does any number of loop passes. -/
theorem refraction_monotone_growth (g : Game) (ls : LS) (n : Nat) :
    ls.direct ⊆ (apply_crystals g ls).1.direct ∧
    ls.scatter ⊆ (apply_crystals g ls).1.scatter ∧
    ls.direct ⊆ (crystal_loop g n ls).direct ∧
    ls.scatter ⊆ (crystal_loop g n ls).scatter :=
  ⟨(apply_crystals_mono g ls).1, (apply_crystals_mono g ls).2,
   (crystal_loop_mono g n ls).1, (crystal_loop_mono g n ls).2⟩

theorem foldl_preserve {α β : Type} (f : α → β → α) (P : α → Prop)
    (hstep : ∀ x b, P x → P (f x b)) :
    ∀ (l : List β) (a : α), P a → P (l.foldl f a) := by
  intro l
  induction l with
  | nil => intro a h; exact h
  | cons x rest ih => intro a h; exact ih (f a x) (hstep a x h)

/-- During a source cast the ledger only gains entries at cells of the
walked line, and every cell with a ledger entry is direct-lit. -/
theorem cast_beam_direct_aux_pres (g : Game) (d : Dir) :
    ∀ (l : List Coord) (D : Finset Coord) (bm : BeamMap),
      (∀ q, bm q ≠ ∅ → q ∈ D ∧ in_bounds g.cfg q.1 q.2 = true) →
      (∀ c0 ∈ l, in_bounds g.cfg c0.1 c0.2 = true) →
      ∀ q, (cast_beam_direct_aux g d l D bm).2 q ≠ ∅ →
        q ∈ (cast_beam_direct_aux g d l D bm).1 ∧
        in_bounds g.cfg q.1 q.2 = true := by
  intro l
  induction l with
  | nil => intro D bm h _ q hq; exact h q hq
  | cons c rest ih =>
    intro D bm h hl q
    by_cases hb : is_block (g.tile c.1 c.2) = true
    · simp only [cast_beam_direct_aux, hb, if_true]
      intro hq
      exact ⟨Finset.mem_insert_of_mem (h q hq).1, (h q hq).2⟩
    · rw [Bool.not_eq_true] at hb
      simp only [cast_beam_direct_aux, hb, Bool.false_eq_true, if_false]
      refine ih (insert c D) (beams_add bm c d) ?_
        (fun c0 hc0 => hl c0 (List.mem_cons_of_mem c hc0)) q
      intro q2 hq2
      by_cases hqc : q2 = c
      · exact ⟨hqc ▸ Finset.mem_insert_self c D,
          hqc ▸ hl c (List.mem_cons_self c rest)⟩
      · rw [beams_add, if_neg hqc] at hq2
        exact ⟨Finset.mem_insert_of_mem (h q2 hq2).1, (h q2 hq2).2⟩

/-- Row-major grid membership matches the bounds test. -/
theorem board_coords_mem (g : Game) (c : Coord) :
    c ∈ board_coords g ↔ in_bounds g.cfg c.1 c.2 = true := by
  obtain ⟨y, x⟩ := c
  constructor
  · intro h
    rw [board_coords, List.mem_flatMap] at h
    obtain ⟨y2, hy2, hmem⟩ := h
    rw [List.mem_map] at hmem
    obtain ⟨x2, hx2, heq⟩ := hmem
    rw [List.mem_range] at hy2 hx2
    cases heq
    simp only [in_bounds, Bool.and_eq_true, decide_eq_true_eq]
    refine ⟨⟨⟨?_, ?_⟩, ?_⟩, ?_⟩ <;> omega
  · intro h
    simp only [in_bounds, Bool.and_eq_true, decide_eq_true_eq] at h
    rw [board_coords]
    refine List.mem_flatMap.mpr ⟨y.toNat, List.mem_range.mpr (by omega), ?_⟩
    refine List.mem_map.mpr ⟨x.toNat, List.mem_range.mpr (by omega), ?_⟩
    rw [Prod.mk.injEq]
    constructor <;> omega

/-- Every cell carrying a ledger entry after the source pass is
direct-lit and on the grid. -/
theorem source_pass_bm_inv (g : Game) :
    ∀ q, (source_pass g).2 q ≠ ∅ →
      q ∈ (source_pass g).1 ∧ in_bounds g.cfg q.1 q.2 = true := by
  have hstep : ∀ (acc : Finset Coord × BeamMap) (c : Coord),
      (∀ q, acc.2 q ≠ ∅ →
        q ∈ acc.1 ∧ in_bounds g.cfg q.1 q.2 = true) →
      (∀ q,
        ((if g.tile c.1 c.2 = V.SOURCE_ON then
            UDLR.foldl (fun a d => cast_beam_direct g c d a.1 a.2) acc
          else acc)).2 q ≠ ∅ →
        q ∈ ((if g.tile c.1 c.2 = V.SOURCE_ON then
            UDLR.foldl (fun a d => cast_beam_direct g c d a.1 a.2) acc
          else acc)).1 ∧ in_bounds g.cfg q.1 q.2 = true) := by
    intro acc c hP
    by_cases hs : g.tile c.1 c.2 = V.SOURCE_ON
    · rw [if_pos hs]
      refine foldl_preserve (fun a d => cast_beam_direct g c d a.1 a.2)
        (fun a => ∀ q, a.2 q ≠ ∅ →
          q ∈ a.1 ∧ in_bounds g.cfg q.1 q.2 = true) ?_ UDLR acc hP
      intro a d hPa q hq
      refine cast_beam_direct_aux_pres g d _ a.1 a.2 hPa ?_ q hq
      intro c0 hc0
      exact mem_line_aux_in_bounds g.cfg d _ c.1 c.2 c0 hc0
    · rw [if_neg hs]; exact hP
  exact foldl_preserve
    (fun acc c =>
      if g.tile c.1 c.2 = V.SOURCE_ON then
        UDLR.foldl (fun a d => cast_beam_direct g c d a.1 a.2) acc
      else acc)
    (fun acc => ∀ q, acc.2 q ≠ ∅ →
      q ∈ acc.1 ∧ in_bounds g.cfg q.1 q.2 = true)
    hstep (board_coords g)
    ((∅ : Finset Coord), (fun _ => (∅ : Finset Dir)))
    (fun q hq => absurd rfl hq)

theorem udlr_mem (d : Dir) : d ∈ UDLR := by
  cases d <;> simp [UDLR]

theorem cast_scatter_from_eq (g : Game) (c : Coord) (d : Dir)
    (S : Finset Coord) :
    cast_scatter_from g c d S = S ∪ beam_path_set g c d := by
  rw [cast_scatter_from, cast_scatter_aux_eq]; rfl

theorem scatter_dirs_fold_mono (g : Game) (bm : BeamMap) (c : Coord) :
    ∀ (ds : List Dir) (s : Finset Coord),
      s ⊆ ds.foldl
        (fun s2 d2 => if d2 ∈ bm c then cast_scatter_from g c d2 s2 else s2)
        s := by
  intro ds
  induction ds with
  | nil => intro s; exact subset_rfl
  | cons d0 rest ih =>
    intro s
    rw [List.foldl_cons]
    refine subset_trans ?_ (ih _)
    by_cases hd : d0 ∈ bm c
    · rw [if_pos hd, cast_scatter_from_eq]
      exact Finset.subset_union_left
    · rw [if_neg hd]

theorem scatter_dirs_fold_includes (g : Game) (bm : BeamMap) (c : Coord)
    (d : Dir) :
    ∀ (ds : List Dir) (s : Finset Coord), d ∈ ds → d ∈ bm c →
      beam_path_set g c d ⊆ ds.foldl
        (fun s2 d2 => if d2 ∈ bm c then cast_scatter_from g c d2 s2 else s2)
        s := by
  intro ds
  induction ds with
  | nil => intro s h; intro hd; simp at h
  | cons d0 rest ih =>
    intro s hmem hdbm
    rw [List.foldl_cons]
    rcases List.mem_cons.mp hmem with he | hrest
    · subst he
      refine subset_trans ?_ (scatter_dirs_fold_mono g bm c rest _)
      rw [if_pos hdbm, cast_scatter_from_eq]
      exact Finset.subset_union_right
    · exact ih _ hrest hdbm

theorem apply_scattering_fold_mono (g : Game) (bm : BeamMap) :
    ∀ (cs : List Coord) (s : Finset Coord),
      s ⊆ cs.foldl
        (fun s c2 =>
          if 2 ≤ (bm c2).card then
            UDLR.foldl
              (fun s2 d2 =>
                if d2 ∈ bm c2 then cast_scatter_from g c2 d2 s2 else s2) s
          else s)
        s := by
  intro cs
  induction cs with
  | nil => intro s; exact subset_rfl
  | cons c0 rest ih =>
    intro s
    rw [List.foldl_cons]
    refine subset_trans ?_ (ih _)
    by_cases hc : 2 ≤ (bm c0).card
    · rw [if_pos hc]
      exact scatter_dirs_fold_mono g bm c0 UDLR s
    · rw [if_neg hc]

theorem apply_scattering_fold_includes (g : Game) (bm : BeamMap) (c : Coord)
    (d : Dir) :
    ∀ (cs : List Coord) (s : Finset Coord),
      c ∈ cs → 2 ≤ (bm c).card → d ∈ bm c →
      beam_path_set g c d ⊆ cs.foldl
        (fun s c2 =>
          if 2 ≤ (bm c2).card then
            UDLR.foldl
              (fun s2 d2 =>
                if d2 ∈ bm c2 then cast_scatter_from g c2 d2 s2 else s2) s
          else s)
        s := by
  intro cs
  induction cs with
  | nil => intro s h; intro h1 h2; simp at h
  | cons c0 rest ih =>
    intro s hmem hcard hdbm
    rw [List.foldl_cons]
    rcases List.mem_cons.mp hmem with he | hrest
    · subst he
      refine subset_trans ?_ (apply_scattering_fold_mono g bm rest _)
      rw [if_pos hcard]
      exact scatter_dirs_fold_includes g bm c d UDLR s (udlr_mem d) hdbm
    · exact ih _ hrest hcard hdbm

/-- Claim C3: after initial casting, every coordinate whose ledger entry
holds two or more distinct directions gets a scatter cast in each such
direction: the cells that cast covers (those beyond the coordinate, up
to the blocking cell) end up in the scatter set, and the intersection
coordinate itself is direct-lit and stays in the direct set through the
whole recomputation — scattering never removes it. -/
theorem intersection_scatter_reclassification (g : Game) (ls : LS)
    (c : Coord) (d : Dir)
    (hcard : 2 ≤ ((source_pass g).2 c).card)
    (hd : d ∈ (source_pass g).2 c) :
    beam_path_set g c d ⊆ apply_scattering g (source_pass g).2 ∅ ∧
    c ∈ (source_pass g).1 ∧
    beam_path_set g c d ⊆ (recompute_light g ls).scatter ∧
    c ∈ (recompute_light g ls).direct := by
  have hne : (source_pass g).2 c ≠ ∅ := by
    intro h0
    rw [h0] at hcard
    simp at hcard
  obtain ⟨hcdir, hbnd⟩ := source_pass_bm_inv g c hne
  have hmemcs : c ∈ board_coords g := (board_coords_mem g c).mpr hbnd
  have hsc : beam_path_set g c d ⊆ apply_scattering g (source_pass g).2 ∅ :=
    apply_scattering_fold_includes g (source_pass g).2 c d (board_coords g)
      ∅ hmemcs hcard hd
  have hrw : recompute_light g ls =
      crystal_loop g 16
        ⟨(source_pass g).1, apply_scattering g (source_pass g).2 ∅⟩ := rfl
  refine ⟨hsc, hcdir, ?_, ?_⟩
  · rw [hrw]
    exact hsc.trans (crystal_loop_mono g 16
      ⟨(source_pass g).1, apply_scattering g (source_pass g).2 ∅⟩).2
  · rw [hrw]
    exact (crystal_loop_mono g 16
      ⟨(source_pass g).1, apply_scattering g (source_pass g).2 ∅⟩).1 hcdir

theorem intersection_scatter_reclassification_witness :
    beam_path_set ex_cross ((1 : Int), (1 : Int)) Dir.R ⊆
      apply_scattering ex_cross (source_pass ex_cross).2 ∅ ∧
    ((1 : Int), (1 : Int)) ∈ (source_pass ex_cross).1 ∧
    beam_path_set ex_cross ((1 : Int), (1 : Int)) Dir.R ⊆
      (recompute_light ex_cross ⟨∅, ∅⟩).scatter ∧
    ((1 : Int), (1 : Int)) ∈ (recompute_light ex_cross ⟨∅, ∅⟩).direct :=
  intersection_scatter_reclassification ex_cross ⟨∅, ∅⟩ (1, 1) Dir.R
    (by decide) (by decide)

theorem crystal_step_true_direct (g : Game) (c : Coord) (ls : LS) (b : Bool) :
    (crystal_step g true c (ls, b)).1.direct = ls.direct ∪ emit_set g c := by
  rw [crystal_step_state, if_pos rfl]

theorem crystal_step_true_scatter (g : Game) (c : Coord) (ls : LS) (b : Bool) :
    (crystal_step g true c (ls, b)).1.scatter = ls.scatter := by
  rw [crystal_step_state, if_pos rfl]

theorem crystal_step_false_direct (g : Game) (c : Coord) (ls : LS) (b : Bool) :
    (crystal_step g false c (ls, b)).1.direct = ls.direct := by
  rw [crystal_step_state, if_neg Bool.false_ne_true]

theorem crystal_step_false_scatter (g : Game) (c : Coord) (ls : LS) (b : Bool) :
    (crystal_step g false c (ls, b)).1.scatter = ls.scatter ∪ emit_set g c := by
  rw [crystal_step_state, if_neg Bool.false_ne_true]

theorem crystal_step_flag_of_eq (g : Game) (isd : Bool) (c : Coord) (ls : LS)
    (b : Bool) (h : (crystal_step g isd c (ls, b)).1 = ls) :
    (crystal_step g isd c (ls, b)).2 = b := by
  rw [crystal_step_snd]
  cases isd
  · have h2 : ls.scatter ∪ emit_set g c = ls.scatter := by
      rw [← crystal_step_false_scatter g c ls b, h]
    have hsub : emit_set g c ⊆ ls.scatter := Finset.union_eq_left.mp h2
    simp [hsub]
  · have h2 : ls.direct ∪ emit_set g c = ls.direct := by
      rw [← crystal_step_true_direct g c ls b, h]
    have hsub : emit_set g c ⊆ ls.direct := Finset.union_eq_left.mp h2
    simp [hsub]

/-- If a full pass leaves the light state unchanged its changed flag is
not raised. -/
theorem apply_crystals_aux_flag_of_eq (g : Game) (L : Finset Coord) :
    ∀ (cs : List Coord) (acc : LS × Bool),
      (apply_crystals_aux g L cs acc).1 = acc.1 →
      (apply_crystals_aux g L cs acc).2 = acc.2 := by
  intro cs
  induction cs with
  | nil => intro acc h; rfl
  | cons c rest ih =>
    intro acc h
    rw [apply_crystals_aux] at h ⊢
    by_cases hc : (g.tile c.1 c.2 = V.CRYSTAL ∧ c ∈ L)
    · rw [if_pos hc] at h ⊢
      obtain ⟨m1, m2⟩ :=
        crystal_step_mono g (decide (c ∈ acc.1.direct)) c acc.1 acc.2
      obtain ⟨a1, a2⟩ := apply_crystals_aux_mono g L rest
        (crystal_step g (decide (c ∈ acc.1.direct)) c acc)
      have hda : (apply_crystals_aux g L rest
          (crystal_step g (decide (c ∈ acc.1.direct)) c acc)).1.direct =
          acc.1.direct := congrArg LS.direct h
      have hsa : (apply_crystals_aux g L rest
          (crystal_step g (decide (c ∈ acc.1.direct)) c acc)).1.scatter =
          acc.1.scatter := congrArg LS.scatter h
      rw [hda] at a1
      rw [hsa] at a2
      have hd : (crystal_step g (decide (c ∈ acc.1.direct)) c acc).1.direct =
          acc.1.direct := subset_antisymm a1 m1
      have hs : (crystal_step g (decide (c ∈ acc.1.direct)) c acc).1.scatter =
          acc.1.scatter := subset_antisymm a2 m2
      have hstate : (crystal_step g (decide (c ∈ acc.1.direct)) c acc).1 =
          acc.1 := LS_ext _ _ hd hs
      have hflag : (crystal_step g (decide (c ∈ acc.1.direct)) c acc).2 =
          acc.2 :=
        crystal_step_flag_of_eq g _ c acc.1 acc.2 hstate
      have hih := ih (crystal_step g (decide (c ∈ acc.1.direct)) c acc)
        (by rw [h, hstate])
      rw [hih, hflag]
    · rw [if_neg hc] at h ⊢
      exact ih acc h

theorem apply_crystals_flag_of_eq (g : Game) (ls : LS)
    (h : (apply_crystals g ls).1 = ls) : (apply_crystals g ls).2 = false :=
  apply_crystals_aux_flag_of_eq g (ls.direct ∪ ls.scatter) (board_coords g)
    (ls, false) h

/-- A crystal that is lit in the snapshot and direct-lit when the pass
starts has its whole emission direct-lit when the pass ends. -/
theorem pass_sat_direct (g : Game) (L : Finset Coord) :
    ∀ (cs : List Coord) (acc : LS × Bool) (z : Coord),
      z ∈ cs → g.tile z.1 z.2 = V.CRYSTAL → z ∈ L → z ∈ acc.1.direct →
      emit_set g z ⊆ (apply_crystals_aux g L cs acc).1.direct := by
  intro cs
  induction cs with
  | nil => intro acc z hz; simp at hz
  | cons c rest ih =>
    intro acc z hz hcr hL hdir
    rw [apply_crystals_aux]
    rcases List.mem_cons.mp hz with he | hrest
    · subst he
      rw [if_pos ⟨hcr, hL⟩]
      have hisd : decide (z ∈ acc.1.direct) = true := decide_eq_true hdir
      rw [hisd]
      refine subset_trans ?_
        (apply_crystals_aux_mono g L rest (crystal_step g true z acc)).1
      rw [crystal_step_true_direct g z acc.1 acc.2]
      exact Finset.subset_union_right
    · by_cases hc : (g.tile c.1 c.2 = V.CRYSTAL ∧ c ∈ L)
      · rw [if_pos hc]
        refine ih _ z hrest hcr hL ?_
        exact (crystal_step_mono g _ c acc.1 acc.2).1 hdir
      · rw [if_neg hc]
        exact ih _ z hrest hcr hL hdir

/-- A crystal that is lit in the snapshot but not direct-lit even when
the pass ends has cast scatter: its whole emission is scatter-lit when
the pass ends. -/
theorem pass_sat_scatter (g : Game) (L : Finset Coord) :
    ∀ (cs : List Coord) (acc : LS × Bool) (z : Coord),
      z ∈ cs → g.tile z.1 z.2 = V.CRYSTAL → z ∈ L →
      z ∉ (apply_crystals_aux g L cs acc).1.direct →
      emit_set g z ⊆ (apply_crystals_aux g L cs acc).1.scatter := by
  intro cs
  induction cs with
  | nil => intro acc z hz; simp at hz
  | cons c rest ih =>
    intro acc z hz hcr hL hnd
    rw [apply_crystals_aux] at hnd ⊢
    rcases List.mem_cons.mp hz with he | hrest
    · subst he
      rw [if_pos ⟨hcr, hL⟩] at hnd ⊢
      by_cases hzd : z ∈ acc.1.direct
      · exfalso
        apply hnd
        have hstep : z ∈
            (crystal_step g (decide (z ∈ acc.1.direct)) z acc).1.direct :=
          (crystal_step_mono g _ z acc.1 acc.2).1 hzd
        exact (apply_crystals_aux_mono g L rest _).1 hstep
      · have hisd : decide (z ∈ acc.1.direct) = false :=
          decide_eq_false hzd
        rw [hisd]
        refine subset_trans ?_
          (apply_crystals_aux_mono g L rest (crystal_step g false z acc)).2
        rw [crystal_step_false_scatter g z acc.1 acc.2]
        exact Finset.subset_union_right
    · by_cases hc : (g.tile c.1 c.2 = V.CRYSTAL ∧ c ∈ L)
      · rw [if_pos hc] at hnd ⊢
        exact ih _ z hrest hcr hL hnd
      · rw [if_neg hc] at hnd ⊢
        exact ih _ z hrest hcr hL hnd

/-- If every lit crystal that is direct-lit already has its emission
direct-lit, a pass adds nothing to `direct`. -/
theorem apply_crystals_aux_direct_stable (g : Game) (L : Finset Coord) :
    ∀ (cs : List Coord) (acc : LS × Bool) (D0 : Finset Coord),
      acc.1.direct = D0 →
      (∀ z ∈ cs, g.tile z.1 z.2 = V.CRYSTAL → z ∈ L → z ∈ D0 →
        emit_set g z ⊆ D0) →
      (apply_crystals_aux g L cs acc).1.direct = D0 := by
  intro cs
  induction cs with
  | nil => intro acc D0 hacc _; exact hacc
  | cons c rest ih =>
    intro acc D0 hacc hyp
    rw [apply_crystals_aux]
    by_cases hc : (g.tile c.1 c.2 = V.CRYSTAL ∧ c ∈ L)
    · rw [if_pos hc]
      by_cases hcd : c ∈ acc.1.direct
      · have hisd : decide (c ∈ acc.1.direct) = true := decide_eq_true hcd
        rw [hisd]
        refine ih _ D0 ?_
          (fun z hz => hyp z (List.mem_cons_of_mem c hz))
        have hemit : emit_set g c ⊆ D0 :=
          hyp c (List.mem_cons_self c rest) hc.1 hc.2 (hacc ▸ hcd)
        rw [crystal_step_true_direct g c acc.1 acc.2, hacc]
        exact Finset.union_eq_left.mpr hemit
      · have hisd : decide (c ∈ acc.1.direct) = false := decide_eq_false hcd
        rw [hisd]
        refine ih _ D0 ?_
          (fun z hz => hyp z (List.mem_cons_of_mem c hz))
        rw [crystal_step_false_direct g c acc.1 acc.2]
        exact hacc
    · rw [if_neg hc]
      exact ih _ D0 hacc (fun z hz => hyp z (List.mem_cons_of_mem c hz))

/-- If every lit crystal outside some direct superset has its emission
scatter-lit, a pass adds nothing to `scatter`. -/
theorem apply_crystals_aux_scatter_stable (g : Game) (L : Finset Coord) :
    ∀ (cs : List Coord) (acc : LS × Bool) (D0 S0 : Finset Coord),
      D0 ⊆ acc.1.direct → acc.1.scatter = S0 →
      (∀ z ∈ cs, g.tile z.1 z.2 = V.CRYSTAL → z ∈ L → z ∉ D0 →
        emit_set g z ⊆ S0) →
      (apply_crystals_aux g L cs acc).1.scatter = S0 := by
  intro cs
  induction cs with
  | nil => intro acc D0 S0 _ hacc _; exact hacc
  | cons c rest ih =>
    intro acc D0 S0 hD hacc hyp
    rw [apply_crystals_aux]
    by_cases hc : (g.tile c.1 c.2 = V.CRYSTAL ∧ c ∈ L)
    · rw [if_pos hc]
      by_cases hcd : c ∈ acc.1.direct
      · have hisd : decide (c ∈ acc.1.direct) = true := decide_eq_true hcd
        rw [hisd]
        refine ih _ D0 S0 ?_ ?_
          (fun z hz => hyp z (List.mem_cons_of_mem c hz))
        · refine hD.trans ?_
          rw [crystal_step_true_direct g c acc.1 acc.2]
          exact Finset.subset_union_left
        · rw [crystal_step_true_scatter g c acc.1 acc.2]
          exact hacc
      · have hisd : decide (c ∈ acc.1.direct) = false := decide_eq_false hcd
        rw [hisd]
        have hcd0 : c ∉ D0 := fun hx => hcd (hD hx)
        have hemit : emit_set g c ⊆ S0 :=
          hyp c (List.mem_cons_self c rest) hc.1 hc.2 hcd0
        refine ih _ D0 S0 ?_ ?_
          (fun z hz => hyp z (List.mem_cons_of_mem c hz))
        · rw [crystal_step_false_direct g c acc.1 acc.2]
          exact hD
        · rw [crystal_step_false_scatter g c acc.1 acc.2, hacc]
          exact Finset.union_eq_left.mpr hemit
    · rw [if_neg hc]
      exact ih _ D0 S0 hD hacc
        (fun z hz => hyp z (List.mem_cons_of_mem c hz))

/-- Once a pass adds nothing to `direct`, the next pass adds nothing to
`direct` either: direct-changing passes form a prefix of the run. -/
theorem apply_crystals_direct_stable (g : Game) (B : LS)
    (h : (apply_crystals g B).1.direct = B.direct) :
    (apply_crystals g ((apply_crystals g B).1)).1.direct =
      (apply_crystals g B).1.direct := by
  refine apply_crystals_aux_direct_stable g
    ((apply_crystals g B).1.direct ∪ (apply_crystals g B).1.scatter)
    (board_coords g) ((apply_crystals g B).1, false)
    ((apply_crystals g B).1.direct) rfl ?_
  intro z hz hcr _ hdz
  have hzB : z ∈ B.direct := h ▸ hdz
  exact pass_sat_direct g (B.direct ∪ B.scatter) (board_coords g) (B, false)
    z hz hcr (Finset.mem_union_left _ hzB) hzB

/-- Once a pass adds nothing to `scatter`, the next pass adds nothing to
`scatter` either: scatter-changing passes form a prefix of the run. -/
theorem apply_crystals_scatter_stable (g : Game) (B : LS)
    (h : (apply_crystals g B).1.scatter = B.scatter) :
    (apply_crystals g ((apply_crystals g B).1)).1.scatter =
      (apply_crystals g B).1.scatter := by
  refine apply_crystals_aux_scatter_stable g
    ((apply_crystals g B).1.direct ∪ (apply_crystals g B).1.scatter)
    (board_coords g) ((apply_crystals g B).1, false)
    ((apply_crystals g B).1.direct) ((apply_crystals g B).1.scatter)
    subset_rfl rfl ?_
  intro z hz hcr hL hndz
  have hzS : z ∈ (apply_crystals g B).1.scatter := by
    rcases Finset.mem_union.mp hL with h1 | h2
    · exact absurd h1 hndz
    · exact h2
  have hzB : z ∈ B.scatter := h ▸ hzS
  exact pass_sat_scatter g (B.direct ∪ B.scatter) (board_coords g) (B, false)
    z hz hcr (Finset.mem_union_right _ hzB) hndz

/-- A pass that enlarges `direct` newly saturates some crystal: a crystal
whose emission was not yet direct-lit but is at pass end. -/
theorem apply_crystals_aux_direct_witness (g : Game) (L : Finset Coord) :
    ∀ (cs : List Coord) (acc : LS × Bool),
      (apply_crystals_aux g L cs acc).1.direct ≠ acc.1.direct →
      ∃ z, z ∈ cs ∧ g.tile z.1 z.2 = V.CRYSTAL ∧
        ¬ emit_set g z ⊆ acc.1.direct ∧
        emit_set g z ⊆ (apply_crystals_aux g L cs acc).1.direct := by
  intro cs
  induction cs with
  | nil => intro acc h; exact absurd rfl h
  | cons c rest ih =>
    intro acc hne
    rw [apply_crystals_aux] at hne ⊢
    by_cases hc : (g.tile c.1 c.2 = V.CRYSTAL ∧ c ∈ L)
    · rw [if_pos hc] at hne ⊢
      by_cases hcd : c ∈ acc.1.direct
      · have hisd : decide (c ∈ acc.1.direct) = true := decide_eq_true hcd
        rw [hisd] at hne ⊢
        by_cases hemit : emit_set g c ⊆ acc.1.direct
        · have hstep : (crystal_step g true c acc).1.direct =
              acc.1.direct := by
            rw [crystal_step_true_direct g c acc.1 acc.2]
            exact Finset.union_eq_left.mpr hemit
          have hne2 : (apply_crystals_aux g L rest
              (crystal_step g true c acc)).1.direct ≠
              (crystal_step g true c acc).1.direct := by
            rw [hstep]; exact hne
          obtain ⟨z, hz, hcr, hno, hyes⟩ := ih (crystal_step g true c acc) hne2
          rw [hstep] at hno
          exact ⟨z, List.mem_cons_of_mem c hz, hcr, hno, hyes⟩
        · refine ⟨c, List.mem_cons_self c rest, hc.1, hemit, ?_⟩
          refine subset_trans ?_
            (apply_crystals_aux_mono g L rest (crystal_step g true c acc)).1
          rw [crystal_step_true_direct g c acc.1 acc.2]
          exact Finset.subset_union_right
      · have hisd : decide (c ∈ acc.1.direct) = false := decide_eq_false hcd
        rw [hisd] at hne ⊢
        have hstep : (crystal_step g false c acc).1.direct = acc.1.direct :=
          crystal_step_false_direct g c acc.1 acc.2
        have hne2 : (apply_crystals_aux g L rest
            (crystal_step g false c acc)).1.direct ≠
            (crystal_step g false c acc).1.direct := by
          rw [hstep]; exact hne
        obtain ⟨z, hz, hcr, hno, hyes⟩ := ih (crystal_step g false c acc) hne2
        rw [hstep] at hno
        exact ⟨z, List.mem_cons_of_mem c hz, hcr, hno, hyes⟩
    · rw [if_neg hc] at hne ⊢
      obtain ⟨z, hz, hcr, hno, hyes⟩ := ih acc hne
      exact ⟨z, List.mem_cons_of_mem c hz, hcr, hno, hyes⟩

/-- A pass that enlarges `scatter` newly scatter-saturates some crystal. -/
theorem apply_crystals_aux_scatter_witness (g : Game) (L : Finset Coord) :
    ∀ (cs : List Coord) (acc : LS × Bool),
      (apply_crystals_aux g L cs acc).1.scatter ≠ acc.1.scatter →
      ∃ z, z ∈ cs ∧ g.tile z.1 z.2 = V.CRYSTAL ∧
        ¬ emit_set g z ⊆ acc.1.scatter ∧
        emit_set g z ⊆ (apply_crystals_aux g L cs acc).1.scatter := by
  intro cs
  induction cs with
  | nil => intro acc h; exact absurd rfl h
  | cons c rest ih =>
    intro acc hne
    rw [apply_crystals_aux] at hne ⊢
    by_cases hc : (g.tile c.1 c.2 = V.CRYSTAL ∧ c ∈ L)
    · rw [if_pos hc] at hne ⊢
      by_cases hcd : c ∈ acc.1.direct
      · have hisd : decide (c ∈ acc.1.direct) = true := decide_eq_true hcd
        rw [hisd] at hne ⊢
        have hstep : (crystal_step g true c acc).1.scatter = acc.1.scatter :=
          crystal_step_true_scatter g c acc.1 acc.2
        have hne2 : (apply_crystals_aux g L rest
            (crystal_step g true c acc)).1.scatter ≠
            (crystal_step g true c acc).1.scatter := by
          rw [hstep]; exact hne
        obtain ⟨z, hz, hcr, hno, hyes⟩ := ih (crystal_step g true c acc) hne2
        rw [hstep] at hno
        exact ⟨z, List.mem_cons_of_mem c hz, hcr, hno, hyes⟩
      · have hisd : decide (c ∈ acc.1.direct) = false := decide_eq_false hcd
        rw [hisd] at hne ⊢
        by_cases hemit : emit_set g c ⊆ acc.1.scatter
        · have hstep : (crystal_step g false c acc).1.scatter =
              acc.1.scatter := by
            rw [crystal_step_false_scatter g c acc.1 acc.2]
            exact Finset.union_eq_left.mpr hemit
          have hne2 : (apply_crystals_aux g L rest
              (crystal_step g false c acc)).1.scatter ≠
              (crystal_step g false c acc).1.scatter := by
            rw [hstep]; exact hne
          obtain ⟨z, hz, hcr, hno, hyes⟩ :=
            ih (crystal_step g false c acc) hne2
          rw [hstep] at hno
          exact ⟨z, List.mem_cons_of_mem c hz, hcr, hno, hyes⟩
        · refine ⟨c, List.mem_cons_self c rest, hc.1, hemit, ?_⟩
          refine subset_trans ?_
            (apply_crystals_aux_mono g L rest (crystal_step g false c acc)).2
          rw [crystal_step_false_scatter g c acc.1 acc.2]
          exact Finset.subset_union_right
    · rw [if_neg hc] at hne ⊢
      obtain ⟨z, hz, hcr, hno, hyes⟩ := ih acc hne
      exact ⟨z, List.mem_cons_of_mem c hz, hcr, hno, hyes⟩

theorem direct_sat_mono (g : Game) (a b : LS) (h : a.direct ⊆ b.direct) :
    direct_sat g a ⊆ direct_sat g b := by
  intro z hz
  rw [direct_sat, Finset.mem_filter] at hz ⊢
  exact ⟨hz.1, hz.2.trans h⟩

theorem scatter_sat_mono (g : Game) (a b : LS) (h : a.scatter ⊆ b.scatter) :
    scatter_sat g a ⊆ scatter_sat g b := by
  intro z hz
  rw [scatter_sat, Finset.mem_filter] at hz ⊢
  exact ⟨hz.1, hz.2.trans h⟩

theorem crystal_finset_card_le (g : Game) :
    (crystal_finset g).card ≤ crystal_count g := by
  rw [crystal_finset, crystal_count]
  exact List.toFinset_card_le _

theorem direct_sat_card_le (g : Game) (ls : LS) :
    (direct_sat g ls).card ≤ crystal_count g :=
  le_trans (Finset.card_le_card (Finset.filter_subset _ _))
    (crystal_finset_card_le g)

theorem scatter_sat_card_le (g : Game) (ls : LS) :
    (scatter_sat g ls).card ≤ crystal_count g :=
  le_trans (Finset.card_le_card (Finset.filter_subset _ _))
    (crystal_finset_card_le g)

/-- A direct-changing pass strictly increases the number of
direct-saturated crystals. -/
theorem pass_direct_sat_growth (g : Game) (ls : LS)
    (h : (apply_crystals g ls).1.direct ≠ ls.direct) :
    (direct_sat g ls).card < (direct_sat g ((apply_crystals g ls).1)).card := by
  obtain ⟨z, hz, hcr, hno, hyes⟩ := apply_crystals_aux_direct_witness g
    (ls.direct ∪ ls.scatter) (board_coords g) (ls, false) h
  have hzc : z ∈ crystal_finset g := by
    rw [crystal_finset, List.mem_toFinset, List.mem_filter]
    exact ⟨hz, by simp [hcr]⟩
  refine Finset.card_lt_card ?_
  rw [Finset.ssubset_iff_of_subset
    (direct_sat_mono g ls _ (apply_crystals_mono g ls).1)]
  refine ⟨z, ?_, ?_⟩
  · rw [direct_sat, Finset.mem_filter]
    exact ⟨hzc, hyes⟩
  · rw [direct_sat, Finset.mem_filter]
    intro hmem
    exact hno hmem.2

/-- A scatter-changing pass strictly increases the number of
scatter-saturated crystals. -/
theorem pass_scatter_sat_growth (g : Game) (ls : LS)
    (h : (apply_crystals g ls).1.scatter ≠ ls.scatter) :
    (scatter_sat g ls).card <
      (scatter_sat g ((apply_crystals g ls).1)).card := by
  obtain ⟨z, hz, hcr, hno, hyes⟩ := apply_crystals_aux_scatter_witness g
    (ls.direct ∪ ls.scatter) (board_coords g) (ls, false) h
  have hzc : z ∈ crystal_finset g := by
    rw [crystal_finset, List.mem_toFinset, List.mem_filter]
    exact ⟨hz, by simp [hcr]⟩
  refine Finset.card_lt_card ?_
  rw [Finset.ssubset_iff_of_subset
    (scatter_sat_mono g ls _ (apply_crystals_mono g ls).2)]
  refine ⟨z, ?_, ?_⟩
  · rw [scatter_sat, Finset.mem_filter]
    exact ⟨hzc, hyes⟩
  · rw [scatter_sat, Finset.mem_filter]
    intro hmem
    exact hno hmem.2

theorem loop_state_shift (g : Game) (ls : LS) :
    ∀ n, loop_state g ls (n + 1) =
      loop_state g ((apply_crystals g ls).1) n := by
  intro n
  induction n with
  | zero => rfl
  | succ n ih =>
    show (apply_crystals g (loop_state g ls (n + 1))).1 =
      loop_state g ((apply_crystals g ls).1) (n + 1)
    rw [ih]
    rfl

theorem loop_direct_stable_succ (g : Game) (ls : LS) (n : Nat)
    (h : (loop_state g ls (n + 1)).direct = (loop_state g ls n).direct) :
    (loop_state g ls (n + 2)).direct = (loop_state g ls (n + 1)).direct :=
  apply_crystals_direct_stable g (loop_state g ls n) h

theorem loop_scatter_stable_succ (g : Game) (ls : LS) (n : Nat)
    (h : (loop_state g ls (n + 1)).scatter = (loop_state g ls n).scatter) :
    (loop_state g ls (n + 2)).scatter = (loop_state g ls (n + 1)).scatter :=
  apply_crystals_scatter_stable g (loop_state g ls n) h

/-- While `direct` keeps changing, every pass direct-saturates a fresh
crystal, so after `n + 1` changing passes at least `n + 1` crystals are
direct-saturated. -/
theorem loop_direct_growth (g : Game) (ls : LS) :
    ∀ n, (loop_state g ls (n + 1)).direct ≠ (loop_state g ls n).direct →
      n + 1 ≤ (direct_sat g (loop_state g ls (n + 1))).card := by
  intro n
  induction n with
  | zero =>
    intro h
    have h0 := pass_direct_sat_growth g (loop_state g ls 0) h
    have hrw : (apply_crystals g (loop_state g ls 0)).1 =
        loop_state g ls 1 := rfl
    rw [hrw] at h0
    show 1 ≤ (direct_sat g (loop_state g ls 1)).card
    omega
  | succ n ih =>
    intro h
    have hn : (loop_state g ls (n + 1)).direct ≠
        (loop_state g ls n).direct := by
      intro he
      exact h (loop_direct_stable_succ g ls n he)
    have h1 := ih hn
    have h2 := pass_direct_sat_growth g (loop_state g ls (n + 1)) h
    have hrw : (apply_crystals g (loop_state g ls (n + 1))).1 =
        loop_state g ls (n + 2) := rfl
    rw [hrw] at h2
    show n + 2 ≤ (direct_sat g (loop_state g ls (n + 2))).card
    omega

theorem loop_scatter_growth (g : Game) (ls : LS) :
    ∀ n, (loop_state g ls (n + 1)).scatter ≠ (loop_state g ls n).scatter →
      n + 1 ≤ (scatter_sat g (loop_state g ls (n + 1))).card := by
  intro n
  induction n with
  | zero =>
    intro h
    have h0 := pass_scatter_sat_growth g (loop_state g ls 0) h
    have hrw : (apply_crystals g (loop_state g ls 0)).1 =
        loop_state g ls 1 := rfl
    rw [hrw] at h0
    show 1 ≤ (scatter_sat g (loop_state g ls 1)).card
    omega
  | succ n ih =>
    intro h
    have hn : (loop_state g ls (n + 1)).scatter ≠
        (loop_state g ls n).scatter := by
      intro he
      exact h (loop_scatter_stable_succ g ls n he)
    have h1 := ih hn
    have h2 := pass_scatter_sat_growth g (loop_state g ls (n + 1)) h
    have hrw : (apply_crystals g (loop_state g ls (n + 1))).1 =
        loop_state g ls (n + 2) := rfl
    rw [hrw] at h2
    show n + 2 ≤ (scatter_sat g (loop_state g ls (n + 2))).card
    omega

/-- After `crystal_count` passes the state is a fixed point of the
refraction pass. -/
theorem loop_stable_at_crystal_count (g : Game) (ls : LS) :
    (apply_crystals g (loop_state g ls (crystal_count g))).1 =
      loop_state g ls (crystal_count g) := by
  have hd : (loop_state g ls (crystal_count g + 1)).direct =
      (loop_state g ls (crystal_count g)).direct := by
    by_contra hne
    have h1 := loop_direct_growth g ls (crystal_count g) hne
    have h2 := direct_sat_card_le g (loop_state g ls (crystal_count g + 1))
    omega
  have hs : (loop_state g ls (crystal_count g + 1)).scatter =
      (loop_state g ls (crystal_count g)).scatter := by
    by_contra hne
    have h1 := loop_scatter_growth g ls (crystal_count g) hne
    have h2 := scatter_sat_card_le g (loop_state g ls (crystal_count g + 1))
    omega
  exact LS_ext _ _ hd hs

/-- If the `n`-th loop state is a fixed point of the pass, the loop runs
at most `n + 1` passes, whatever its fuel. -/
theorem crystal_loop_count_le (g : Game) :
    ∀ (fuel : Nat) (ls : LS) (n : Nat),
      (apply_crystals g (loop_state g ls n)).1 = loop_state g ls n →
      crystal_loop_count g fuel ls ≤ n + 1 := by
  intro fuel
  induction fuel with
  | zero => intro ls n _; rw [crystal_loop_count]; omega
  | succ fuel ih =>
    intro ls n h
    rw [crystal_loop_count]
    by_cases hch : (apply_crystals g ls).2 = true
    · rw [if_pos hch]
      cases n with
      | zero =>
        exfalso
        have hf := apply_crystals_flag_of_eq g ls h
        rw [hf] at hch
        exact Bool.false_ne_true hch
      | succ n =>
        have h2 : (apply_crystals g
            (loop_state g ((apply_crystals g ls).1) n)).1 =
            loop_state g ((apply_crystals g ls).1) n := by
          rw [← loop_state_shift]
          exact h
        have h3 := ih ((apply_crystals g ls).1) n h2
        omega
    · rw [if_neg hch]
      omega

/-- Claim C6: within one recomputation the refraction loop reaches a
pass that adds no new coordinate after at most `crystal_count + 1`
passes — indeed for every board, which subsumes the acyclic and
simple-cycle crystal arrangements — and whenever the board has at most
14 crystals the loop stops strictly before the 16-pass cap. -/
theorem refraction_pass_bound (g : Game) :
    recompute_pass_count g ≤ crystal_count g + 1 ∧
    (crystal_count g ≤ 14 → recompute_pass_count g < 16) := by
  have hb : recompute_pass_count g ≤ crystal_count g + 1 :=
    crystal_loop_count_le g 16
      ⟨(source_pass g).1, apply_scattering g (source_pass g).2 ∅⟩
      (crystal_count g) (loop_stable_at_crystal_count g _)
  exact ⟨hb, fun h14 => lt_of_le_of_lt hb (by omega)⟩

theorem refraction_pass_bound_witness :
    recompute_pass_count ex_crystal ≤ crystal_count ex_crystal + 1 ∧
    recompute_pass_count ex_crystal < 16 :=
  ⟨(refraction_pass_bound ex_crystal).1,
   (refraction_pass_bound ex_crystal).2 (by decide)⟩
